import Mathlib

/-!
Shallow embedding of `src/oneBadApple.c` (CIS 452 ring-of-processes token
passing).  Pure functions of the C source (`parse_destination`, `chomp`,
the `strtol` it calls, the dispatch body of `node_loop`, `read_full`,
`write_full`, the fd-closing loops of `main`, the SIGINT handler) are
translated into Lean definitions; theorems below check the specification
claims against them.
-/

namespace OneBadApple

/-- Constant `MAX_K` from the source: maximum ring size. -/
def MAX_K : ℤ := 64

/-- Constant `MAX_TEXT` from the source: size of the `text` buffer (bytes, NUL included). -/
def MAX_TEXT : ℕ := 1024

/-- Sentinel `DEST_EMPTY`: an apple with empty header. -/
def DEST_EMPTY : ℤ := -1

/-- The `apple_t` record.  `text` models the NUL-terminated C string stored in
the fixed buffer (its content up to the terminator), as a list of characters. -/
structure Apple where
  dest : ℤ
  origin : ℤ
  text : List Char
  deriving DecidableEq, Repr

/-- Helper `chomp`: trim a trailing newline, as in the C helper. -/
def chomp (s : List Char) : List Char :=
  if s ≠ [] ∧ s.getLast? = some '\n' then s.dropLast else s

/-- What `fgets(buf, cap, stdin)` stores when the operator typed the line `s`
(no newline inside `s`): characters are taken until the newline is stored or
`cap - 1` characters are read. -/
def fgets_line (cap : ℕ) (s : List Char) : List Char :=
  (s ++ ['\n']).take (cap - 1)

/-- C `isspace` on the default locale, used by `strtol` to skip leading space. -/
def isSpaceC (c : Char) : Bool :=
  c = ' ' ∨ c = '\t' ∨ c = '\n' ∨ c = '\x0b' ∨ c = '\x0c' ∨ c = '\r'

/-- Value of a digit string, most significant first (what `strtol`
accumulates). -/
def digitsFold (ds : List Char) : ℤ :=
  ds.foldl (fun acc c => acc * 10 + ((c.toNat : ℤ) - 48)) 0

/-- The call `strtol(s, &end, 10)` as made by `parse_destination`: skip leading
white space, read an optional single `+`/`-` sign, then a maximal run of
decimal digits.  Returns the signed value together with the suffix starting
at `end`.  When no digit is consumed, `end` is reset to the start of `s`
and the value is `0`.  (The libc clamping at `LONG_MIN`/`LONG_MAX` is not
modelled: `parse_destination` only ever accepts values in `[0, k)` with
`k ≤ 64`, and clamping never maps a value from outside that range into it.) -/
def strtol10 (s : List Char) : ℤ × List Char :=
  let t := s.dropWhile isSpaceC
  let u := if t.head? = some '-' ∨ t.head? = some '+' then t.tail else t
  let ds := u.takeWhile Char.isDigit
  let rest := u.dropWhile Char.isDigit
  if ds = [] then (0, s)
  else ((if t.head? = some '-' then -1 else 1) * digitsFold ds, rest)

/-- Validation `parse_destination(s, k, out)`: `none` models the `-1` return,
`some v` models storing `v` in `*out` and returning `0`. -/
def parse_destination (s : List Char) (k : ℤ) : Option ℤ :=
  let r := strtol10 s
  if r.2 = s ∨ r.2 ≠ [] then none
  else if r.1 < 0 ∨ r.1 ≥ k then none
  else some r.1

/-- One console read: either `fgets` returned `NULL` (end of input) or a line
the operator typed (modelled without its newline; `fgets_line` adds it back,
bounded by the buffer size). -/
inductive ConsoleLine where
  | eof
  | line (s : List Char)
  deriving DecidableEq, Repr

/-- The console collaborator's answers to the two prompts of one injection
attempt. -/
structure Console where
  destLine : ConsoleLine
  msgLine : ConsoleLine
  deriving DecidableEq, Repr

/-- Observable reports emitted through `printf` by the dispatch body. -/
inductive Event where
  | emptyReturned (node : ℤ)
  | invalidDest (raw : List Char)
  | injected (node dest : ℤ) (text : List Char)
  | receivedEmpty (node : ℤ)
  | delivered (node origin : ℤ) (text : List Char)
  | forwardedFor (node dest : ℤ)
  deriving DecidableEq, Repr

/-- Result of one iteration of the `while` body of `node_loop` after a
successful `read_full`: either an apple is handed to `write_full` for the
successor edge, or the quit directive raises `SIGINT` and breaks the loop. -/
inductive StepResult where
  | forward (a : Apple) (evs : List Event)
  | quit
  deriving DecidableEq, Repr

/-- The `a.dest != DEST_EMPTY` branch of `node_loop` (lines 195-213):
deliver-and-clear when addressed to this node, otherwise forward unchanged. -/
def handleAddressed (my_id : ℤ) (a : Apple) : StepResult :=
  if a.dest = my_id then
    .forward { dest := DEST_EMPTY, origin := my_id, text := [] }
      [.delivered my_id a.origin a.text]
  else
    .forward a [.forwardedFor my_id a.dest]

/-- The `my_id == 0` empty-apple branch of `node_loop` (lines 144-188): prompt
for a destination and a message, then inject, re-emit empty, or quit. -/
def handleEmptyInjector (g_k : ℤ) (a : Apple) (con : Console) : StepResult :=
  match con.destLine with
  | .eof =>
      .forward { a with dest := DEST_EMPTY } [.emptyReturned 0]
  | .line raw =>
      let dest_buf := chomp (fgets_line 64 raw)
      if dest_buf = ['q'] ∨ dest_buf = ['Q'] then
        .quit
      else
        match parse_destination dest_buf g_k with
        | none => .forward a [.emptyReturned 0, .invalidDest dest_buf]
        | some dest =>
            let text_buf :=
              match con.msgLine with
              | .eof => ([] : List Char)
              | .line m => chomp (fgets_line MAX_TEXT m)
            let injected : Apple :=
              { dest := dest, origin := 0, text := text_buf.take (MAX_TEXT - 1) }
            .forward injected [.emptyReturned 0, .injected 0 dest injected.text]

/-- Dispatch of one received apple by `(dest, my_id)`, the full `while` body
of `node_loop` between a successful `read_full` and the matching
`write_full`. -/
def dispatch (my_id g_k : ℤ) (a : Apple) (con : Console) : StepResult :=
  if a.dest = DEST_EMPTY then
    if my_id = 0 then handleEmptyInjector g_k a con
    else .forward a [.receivedEmpty my_id]
  else handleAddressed my_id a

/-- The apple that `handleAddressed` hands to `write_full` (its result is
always `forward`; `quit` cannot arise in that branch). -/
def relayApple (my_id : ℤ) (a : Apple) : Apple :=
  match handleAddressed my_id a with
  | .forward b _ => b
  | .quit => a

/-- The node holding the apple `n` hops after node `o` wrote it: each node
writes to its clockwise neighbour (`pipes[i]` connects node `i` to node
`(i+1) % k`). -/
def holder (k o n : ℕ) : ℕ := (o + n) % k

/-- The apple after `n` hops: hop `n+1` is node `holder k o (n+1)` receiving
the apple and running the addressed branch of the dispatch on it. -/
def afterHop (k o : ℕ) (a : Apple) : ℕ → Apple
  | 0 => a
  | n + 1 => relayApple ((holder k o (n + 1) : ℕ) : ℤ) (afterHop k o a n)

/-- One return of `read(2)` as observed by `read_full`: a byte count
(`bytes 0` is the end-of-stream return when every write end is closed),
an `EINTR` failure, or any other failure. -/
inductive ReadRes where
  | bytes (m : ℕ)
  | rEINTR
  | rError
  deriving DecidableEq, Repr

/-- One return of `write(2)` as observed by `write_full`. -/
inductive WriteRes where
  | bytes (m : ℕ)
  | wEINTR
  | wError
  deriving DecidableEq, Repr

/-- The run of `read_full(fd, buf, n)` over a trace of `read` returns, with `left`
bytes still to be read.  `some 0` models the `0` return (all bytes moved),
`some (-1)` the `-1` return, `none` a run that exhausts the trace while
still blocked. -/
def read_full (stop_requested : Bool) : ℕ → List ReadRes → Option ℤ
  | 0, _ => some 0
  | _ + 1, [] => none
  | left + 1, r :: rest =>
    match r with
    | .rEINTR =>
        if stop_requested then some (-1)
        else read_full stop_requested (left + 1) rest
    | .rError => some (-1)
    | .bytes 0 => some (-1)
    | .bytes (m + 1) => read_full stop_requested (left + 1 - (m + 1)) rest

/-- The run of `write_full(fd, buf, n)` over a trace of `write` returns. -/
def write_full : ℕ → List WriteRes → Option ℤ
  | 0, _ => some 0
  | _ + 1, [] => none
  | left + 1, w :: rest =>
    match w with
    | .wEINTR => write_full (left + 1) rest
    | .wError => some (-1)
    | .bytes m => write_full (left + 1 - m) rest

/-- External observations of one node process in `node_loop`: steps that
forward an apple, the teardown of lines 217-220, or the injector's
`raise(SIGINT)` on the quit directive. -/
inductive TraceItem where
  | step (evs : List Event) (sent : Apple)
  | closeReadFd
  | closeWriteFd
  | exitZero
  | quitSigint
  deriving DecidableEq, Repr

/-- Lines 217-220: on leaving the `while` loop the node closes both its
endpoints and calls `_exit(0)`. -/
def exitActions : List TraceItem := [.closeReadFd, .closeWriteFd, .exitZero]

/-- The outcome of the two channel operations of one loop iteration,
together with the console answers consumed if the node prompts. -/
structure NodeInput where
  readOk : Bool
  apple : Apple
  con : Console
  writeOk : Bool
  deriving DecidableEq, Repr

/-- The loop `node_loop` as a fold over iteration inputs: a failed `read_full`
breaks out of the loop, then `dispatch` runs, and a failed `write_full`
on the forwarded apple also breaks out; leaving the loop performs
`exitActions`.  An exhausted input list models a node still blocked in
`read_full`. -/
def node_run (my_id g_k : ℤ) : List NodeInput → List TraceItem
  | [] => []
  | inp :: rest =>
    if inp.readOk = false then exitActions
    else
      match dispatch my_id g_k inp.apple inp.con with
      | .quit => [.quitSigint]
      | .forward a evs =>
          if inp.writeOk = false then exitActions
          else .step evs a :: node_run my_id g_k rest

/-- Startup validation of `main` (lines 228-234): `none` models
`scanf("%d", &k) != 1` (missing or non-integer input); an out-of-range `k`
also returns exit code 1, otherwise `k` is accepted.  The `Except`
staging places the error strictly before `edgesCreated`: no pipe exists
and no process is forked on the error path. -/
def startup_check (inp : Option ℤ) : Except ℕ ℤ :=
  match inp with
  | none => .error 1
  | some k => if k < 2 ∨ k > MAX_K then .error 1 else .ok k

/-- The pipe indices created by the loop at lines 243-248, one per node. -/
def edgesCreated (k : ℤ) : List ℤ :=
  (List.range k.toNat).map Int.ofNat

/-- Startup of `main` up to ring construction: validation, then the `k` pipes. -/
def startup (inp : Option ℤ) : Except ℕ (ℤ × List ℤ) :=
  match startup_check inp with
  | .error e => .error e
  | .ok k => .ok (k, edgesCreated k)

/-- Does process `i` keep the read end of pipe `j` open after the close
loops?  Children (lines 262-273) keep exactly `pipes[(i-1+k)%k][0]`; the
parent (lines 292-295) keeps exactly `pipes[k-1][0]`. -/
def openReadEnd (k i j : ℤ) : Bool :=
  if i = 0 then decide (j = k - 1) else decide (j = (i - 1 + k) % k)

/-- Does process `i` keep the write end of pipe `j` open?  Children keep
exactly `pipes[i][1]`; the parent keeps exactly `pipes[0][1]`. -/
def openWriteEnd (k i j : ℤ) : Bool :=
  if i = 0 then decide (j = 0) else decide (j = i)

/-- The pipe whose read end becomes `read_fd` of process `i`
(line 274 for children, line 288 for the parent: both compute
`(i - 1 + k) % k`). -/
def readEdge (k i : ℤ) : ℤ := (i - 1 + k) % k

/-- The pipe whose write end becomes `write_fd` of process `i`
(line 275 for children, line 289 for the parent). -/
def writeEdge (k i : ℤ) : ℤ := i

/-- Actions of the shutdown path. -/
inductive ShutdownAction where
  | sendStop (pid : ℤ)
  | closeReadFd
  | closeWriteFd
  | reapAll
  | exitCode (c : ℤ)
  deriving DecidableEq, Repr

/-- Handler `sigint_parent_handler` (lines 106-119) as the sequence of actions it
performs: `kill(child_pids[i], SIGUSR1)` for each recorded child, close of
`read_fd` and `write_fd` when open, the `while (wait(NULL) > 0)` reap, and
`_exit(0)`. -/
def sigint_parent_handler (child_pids : List ℤ) (rfd wfd : ℤ) : List ShutdownAction :=
  (child_pids.filterMap fun p => if p > 0 then some (ShutdownAction.sendStop p) else none)
    ++ (if rfd ≥ 0 then [ShutdownAction.closeReadFd] else [])
    ++ (if wfd ≥ 0 then [ShutdownAction.closeWriteFd] else [])
    ++ [ShutdownAction.reapAll, ShutdownAction.exitCode 0]

/-- Sign factor of the optional sign consumed by `strtol`. -/
def signOf (sgn : List Char) : ℤ := if sgn = ['-'] then -1 else 1

/-- The acceptance condition exactly as the claim states it: after optional
leading white space and an optional single sign there is a nonempty run of
decimal digits, nothing follows the digits, and the signed value lies in
`[0, k)`. -/
def specAccepted (s : List Char) (k : ℤ) : Prop :=
  ∃ ws sgn ds, s = ws ++ sgn ++ ds ∧ (∀ c ∈ ws, isSpaceC c) ∧
    (sgn = [] ∨ sgn = ['+'] ∨ sgn = ['-']) ∧ ds ≠ [] ∧ (∀ c ∈ ds, c.isDigit) ∧
    0 ≤ signOf sgn * digitsFold ds ∧ signOf sgn * digitsFold ds < k

/-! ## Helper lemmas -/

/-- An addressed apple not meant for this node is forwarded unchanged. -/
theorem relayApple_not_addressed (my_id : ℤ) (a : Apple) (h : a.dest ≠ my_id) :
    relayApple my_id a = a := by
  simp [relayApple, handleAddressed, h]

/-- An apple addressed to this node is cleared: sentinel dest, own id as
origin, empty text. -/
theorem relayApple_addressed (my_id : ℤ) (a : Apple) (h : a.dest = my_id) :
    relayApple my_id a = { dest := DEST_EMPTY, origin := my_id, text := [] } := by
  simp [relayApple, handleAddressed, h]

/-- On a non-empty apple, `dispatch` is the addressed branch at every node,
independent of the console. -/
theorem dispatch_addressed (my_id g_k : ℤ) (a : Apple) (con : Console)
    (h : a.dest ≠ DEST_EMPTY) :
    dispatch my_id g_k a con = handleAddressed my_id a := by
  simp [dispatch, h]

/-- The apple written by node `o` reaches node `d` at hop `m` exactly when
`m ≡ d + k - o (mod k)`. -/
theorem holder_eq_iff (k o d m : ℕ) (ho : o < k) (hd : d < k) :
    holder k o m = d ↔ m % k = (d + k - o) % k := by
  unfold holder
  constructor
  · intro h
    have h1 : (o + m) % k = d % k := by rw [h, Nat.mod_eq_of_lt hd]
    have h2 : (o + m + (k - o)) % k = (d + (k - o)) % k := Nat.ModEq.add_right _ h1
    have e1 : o + m + (k - o) = m + k := by omega
    have e2 : d + (k - o) = d + k - o := by omega
    rw [e1, e2, Nat.add_mod_right] at h2
    exact h2
  · intro h
    have h2 : (m + o) % k = (d + k - o + o) % k := Nat.ModEq.add_right o h
    have e1 : d + k - o + o = d + k := by omega
    rw [e1, Nat.add_mod_right] at h2
    rw [Nat.add_comm o m, h2, Nat.mod_eq_of_lt hd]

/-- While no hop up to `H` lands on the destination, the apple circulates
unchanged. -/
theorem afterHop_unchanged (k o d : ℕ) (a : Apple)
    (hdest : a.dest = (d : ℤ)) (H : ℕ)
    (hno : ∀ m, 1 ≤ m → m ≤ H → holder k o m ≠ d) :
    ∀ m, m ≤ H → afterHop k o a m = a := by
  intro m
  induction m with
  | zero => intro _; rfl
  | succ n ih =>
      intro hle
      have hn : afterHop k o a n = a := ih (by omega)
      show relayApple ((holder k o (n + 1) : ℕ) : ℤ) (afterHop k o a n) = a
      rw [hn]
      apply relayApple_not_addressed
      rw [hdest]
      intro hcast
      have : holder k o (n + 1) = d := by exact_mod_cast hcast.symm
      exact hno (n + 1) (by omega) hle this

/-- What the message prompt stores in the apple: reading the typed line `m`
with `fgets` into the `MAX_TEXT` buffer, chomping the newline, and copying
at most `MAX_TEXT - 1` characters with `strncpy` amounts to truncating `m`
at `MAX_TEXT - 1` characters. -/
theorem injected_text_eq (m : List Char) (hm : '\n' ∉ m) :
    (chomp (fgets_line MAX_TEXT m)).take (MAX_TEXT - 1) = m.take (MAX_TEXT - 1) := by
  unfold fgets_line MAX_TEXT
  by_cases hlen : m.length + 1 ≤ 1023
  · have h1 : (m ++ ['\n']).take (1024 - 1) = m ++ ['\n'] :=
      List.take_of_length_le (by simp; omega)
    rw [h1]
    have h2 : chomp (m ++ ['\n']) = m := by
      unfold chomp
      rw [if_pos]
      · exact List.dropLast_concat
      · exact ⟨by simp, List.getLast?_concat m⟩
    rw [h2]
  · have h1 : (m ++ ['\n']).take (1024 - 1) = m.take 1023 := by
      rw [List.take_append_eq_append_take]
      have : 1024 - 1 - m.length = 0 := by omega
      rw [this]
      simp
    rw [h1]
    have h2 : chomp (m.take 1023) = m.take 1023 := by
      unfold chomp
      rw [if_neg]
      intro ⟨_, hlast⟩
      exact hm (List.take_subset _ _ (List.mem_of_getLast?_eq_some hlast))
    rw [h2, List.take_take]
    norm_num

/-! ## Claim theorems -/

/-- C1: for every ring size `k ∈ [2, MAX_K]` and every injected apple with
origin `o` and valid destination `d`, the number of forwarding hops from
injection to delivery is `(d - o + k) mod k` when nonzero and `k` when
`d = o`: the hop count `H` satisfies `1 ≤ H ≤ k`, hop `H` lands on node `d`,
no earlier hop does, the apple circulates unchanged until then, hop `H`
delivers and clears it, `H = k` exactly for self-addressing, and a
destination equal to the Injector's own id `0` passes destination
validation. -/
theorem C1_traversal_count (k o d H : ℕ) (a : Apple)
    (hk2 : 2 ≤ k) (hkM : (k : ℤ) ≤ MAX_K) (ho : o < k) (hd : d < k)
    (hdest : a.dest = (d : ℤ))
    (hH : H = if (d + k - o) % k = 0 then k else (d + k - o) % k) :
    (1 ≤ H ∧ H ≤ k) ∧
    holder k o H = d ∧
    (∀ m, 1 ≤ m → m < H → holder k o m ≠ d) ∧
    (∀ m, m < H → afterHop k o a m = a) ∧
    afterHop k o a H = { dest := DEST_EMPTY, origin := (d : ℤ), text := [] } ∧
    (d = o ↔ H = k) ∧
    (∀ my_id g_k con, dispatch my_id g_k a con = handleAddressed my_id a) ∧
    parse_destination ['0'] (k : ℤ) = some 0 := by
  have hk0 : 0 < k := by omega
  have hrk : (d + k - o) % k < k := Nat.mod_lt _ hk0
  have hbounds : 1 ≤ H ∧ H ≤ k := by
    by_cases hr0 : (d + k - o) % k = 0
    · rw [if_pos hr0] at hH; omega
    · rw [if_neg hr0] at hH; omega
  have hHmod : H % k = (d + k - o) % k := by
    by_cases hr0 : (d + k - o) % k = 0
    · rw [if_pos hr0] at hH; rw [hH, Nat.mod_self, hr0]
    · rw [if_neg hr0] at hH
      rw [hH, Nat.mod_eq_of_lt hrk]
  have harrive : holder k o H = d := by
    rw [holder_eq_iff k o d H ho hd]; exact hHmod
  have hnoearly : ∀ m, 1 ≤ m → m < H → holder k o m ≠ d := by
    intro m h1 h2 hcon
    have hm : m % k = (d + k - o) % k := (holder_eq_iff k o d m ho hd).mp hcon
    have hmk : m < k := by omega
    rw [Nat.mod_eq_of_lt hmk] at hm
    by_cases hr0 : (d + k - o) % k = 0
    · omega
    · rw [if_neg hr0] at hH; omega
  have hunch : ∀ m, m < H → afterHop k o a m = a := by
    intro m hm
    apply afterHop_unchanged k o d a hdest (H - 1)
    · intro m' h1 h2
      exact hnoearly m' h1 (by omega)
    · omega
  have hdeliver : afterHop k o a H =
      { dest := DEST_EMPTY, origin := (d : ℤ), text := [] } := by
    obtain ⟨n, rfl⟩ : ∃ n, H = n + 1 := ⟨H - 1, by omega⟩
    show relayApple ((holder k o (n + 1) : ℕ) : ℤ) (afterHop k o a n) = _
    rw [hunch n (by omega), harrive]
    exact relayApple_addressed _ a hdest
  have hself : d = o ↔ H = k := by
    constructor
    · intro hdo
      have : d + k - o = k := by omega
      rw [this, Nat.mod_self, if_pos rfl] at hH
      exact hH
    · intro hHk
      have h1 : holder k o k = d := hHk ▸ harrive
      have h2 : holder k o k = o := by
        unfold holder
        rw [Nat.add_mod_right, Nat.mod_eq_of_lt ho]
      omega
  have hdisp : ∀ my_id g_k con, dispatch my_id g_k a con = handleAddressed my_id a := by
    intro my_id g_k con
    apply dispatch_addressed
    rw [hdest]
    unfold DEST_EMPTY
    omega
  have hparse : parse_destination ['0'] (k : ℤ) = some 0 := by
    have h1 : strtol10 ['0'] = ((0 : ℤ), ([] : List Char)) := by decide
    simp only [parse_destination, h1]
    norm_num
    omega
  exact ⟨hbounds, harrive, hnoearly, hunch, hdeliver, hself, hdisp, hparse⟩

/-- C1 witness: `k = 3`, `o = 0`, `d = 2`, two forwarding hops. -/
theorem C1_traversal_count_witness :
    (1 ≤ 2 ∧ 2 ≤ 3) ∧
    holder 3 0 2 = 2 ∧
    (∀ m, 1 ≤ m → m < 2 → holder 3 0 m ≠ 2) ∧
    (∀ m, m < 2 → afterHop 3 0 ⟨2, 0, ['h', 'i']⟩ m = ⟨2, 0, ['h', 'i']⟩) ∧
    afterHop 3 0 ⟨2, 0, ['h', 'i']⟩ 2 = { dest := DEST_EMPTY, origin := (2 : ℤ), text := [] } ∧
    (2 = 0 ↔ 2 = 3) ∧
    (∀ my_id g_k con, dispatch my_id g_k ⟨2, 0, ['h', 'i']⟩ con
      = handleAddressed my_id ⟨2, 0, ['h', 'i']⟩) ∧
    parse_destination ['0'] ((3 : ℕ) : ℤ) = some 0 :=
  C1_traversal_count 3 0 2 2 ⟨2, 0, ['h', 'i']⟩ (by decide) (by decide)
    (by decide) (by decide) (by decide) (by decide)

/-- C2: the text delivered at the destination equals the text supplied at
injection, except that text is deterministically truncated at
`MAX_TEXT - 1` characters (`MAX_TEXT` bytes with the NUL terminator) at
injection; text at most that long is stored intact, and a relay holding a
non-matching addressed token forwards every field unchanged. -/
theorem C2_content_fidelity (g_k : ℤ) (a : Apple) (rawd m : List Char) (dest : ℤ)
    (hm : '\n' ∉ m)
    (hq : chomp (fgets_line 64 rawd) ≠ ['q'])
    (hQ : chomp (fgets_line 64 rawd) ≠ ['Q'])
    (hp : parse_destination (chomp (fgets_line 64 rawd)) g_k = some dest) :
    handleEmptyInjector g_k a ⟨.line rawd, .line m⟩ =
      .forward { dest := dest, origin := 0, text := m.take (MAX_TEXT - 1) }
        [.emptyReturned 0, .injected 0 dest (m.take (MAX_TEXT - 1))] ∧
    (m.length + 1 ≤ MAX_TEXT → m.take (MAX_TEXT - 1) = m) ∧
    (∀ my_id b, b.dest ≠ my_id →
      handleAddressed my_id b = .forward b [.forwardedFor my_id b.dest]) := by
  refine ⟨?_, ?_, ?_⟩
  · simp only [handleEmptyInjector, hp, injected_text_eq m hm]
    rw [if_neg]
    intro h
    rcases h with h | h
    · exact hq h
    · exact hQ h
  · intro h
    apply List.take_of_length_le
    unfold MAX_TEXT at h ⊢
    omega
  · intro my_id b h
    simp [handleAddressed, h]

/-- C2 witness: destination `2` in a ring of `3`, message `"hi"`. -/
theorem C2_content_fidelity_witness :
    handleEmptyInjector 3 ⟨DEST_EMPTY, 0, []⟩ ⟨.line ['2'], .line ['h', 'i']⟩ =
      .forward { dest := 2, origin := 0, text := ['h', 'i'].take (MAX_TEXT - 1) }
        [.emptyReturned 0, .injected 0 2 (['h', 'i'].take (MAX_TEXT - 1))] ∧
    (['h', 'i'].length + 1 ≤ MAX_TEXT → ['h', 'i'].take (MAX_TEXT - 1) = ['h', 'i']) ∧
    (∀ my_id b, b.dest ≠ my_id →
      handleAddressed my_id b = .forward b [.forwardedFor my_id b.dest]) :=
  C2_content_fidelity 3 ⟨DEST_EMPTY, 0, []⟩ ['2'] ['h', 'i'] 2
    (by decide) (by decide) (by decide) (by decide)

/-- C3: a node receiving a token addressed to itself reports the delivery
with the sender's origin and the carried text, then forwards the token
cleared: `dest = -1`, `origin` = its own id, empty text. -/
theorem C3_delivery_clears (my_id g_k : ℤ) (b : Apple) (con : Console)
    (hmy : 0 ≤ my_id) (hb : b.dest = my_id) :
    dispatch my_id g_k b con =
      .forward { dest := DEST_EMPTY, origin := my_id, text := [] }
        [.delivered my_id b.origin b.text] := by
  rw [dispatch_addressed]
  · simp [handleAddressed, hb]
  · rw [hb]
    unfold DEST_EMPTY
    omega

/-- C3 witness: node 1 in a ring of 3 receives a token addressed to it. -/
theorem C3_delivery_clears_witness :
    dispatch 1 3 ⟨1, 0, ['h', 'i']⟩ ⟨.eof, .eof⟩ =
      .forward { dest := DEST_EMPTY, origin := 1, text := [] }
        [.delivered 1 0 ['h', 'i']] :=
  C3_delivery_clears 1 3 ⟨1, 0, ['h', 'i']⟩ ⟨.eof, .eof⟩ (by decide) (by decide)

/-- C4 counterexample: end-of-input at the *message* prompt does cause an
addressed token to be injected — with destination line `"1"` accepted and
`fgets` returning `NULL` at the message prompt, the Injector forwards the
token addressed to node 1 (not the empty token the claim requires). -/
theorem C4_counterexample :
    dispatch 0 2 ⟨DEST_EMPTY, 0, []⟩ ⟨.line ['1'], .eof⟩ =
      .forward ⟨1, 0, []⟩ [.emptyReturned 0, .injected 0 1 []] ∧
    (1 : ℤ) ≠ DEST_EMPTY := by decide

/-- C4 (amended): end-of-input at the destination prompt makes the Injector
re-emit the token empty and continue (never escalated); end-of-input at the
message prompt is instead treated as an empty message: the token is
injected addressed to the already-validated destination with empty text. -/
theorem C4_eof_behavior (g_k : ℤ) (a : Apple) (ml : ConsoleLine)
    (rawd : List Char) (dest : ℤ)
    (ha : a.dest = DEST_EMPTY)
    (hq : chomp (fgets_line 64 rawd) ≠ ['q'])
    (hQ : chomp (fgets_line 64 rawd) ≠ ['Q'])
    (hp : parse_destination (chomp (fgets_line 64 rawd)) g_k = some dest) :
    dispatch 0 g_k a ⟨.eof, ml⟩ =
      .forward { a with dest := DEST_EMPTY } [.emptyReturned 0] ∧
    dispatch 0 g_k a ⟨.line rawd, .eof⟩ =
      .forward { dest := dest, origin := 0, text := [] }
        [.emptyReturned 0, .injected 0 dest []] := by
  constructor
  · simp [dispatch, ha, handleEmptyInjector]
  · simp only [dispatch, ha, if_pos, if_true]
    simp only [handleEmptyInjector, hp]
    rw [if_neg]
    · rfl
    · intro h
      rcases h with h | h
      · exact hq h
      · exact hQ h

/-- C4 witness: ring of 2, destination line `"1"`. -/
theorem C4_eof_behavior_witness :
    dispatch 0 2 ⟨DEST_EMPTY, 1, []⟩ ⟨.eof, .eof⟩ =
      .forward { Apple.mk DEST_EMPTY 1 [] with dest := DEST_EMPTY } [.emptyReturned 0] ∧
    dispatch 0 2 ⟨DEST_EMPTY, 1, []⟩ ⟨.line ['1'], .eof⟩ =
      .forward { dest := 1, origin := 0, text := [] }
        [.emptyReturned 0, .injected 0 1 []] :=
  C4_eof_behavior 2 ⟨DEST_EMPTY, 1, []⟩ .eof ['1'] 1
    (by decide) (by decide) (by decide) (by decide)

/-- C5: on a destination line that is non-numeric or out of `[0, k)` the
Injector forwards the token it holds unchanged (still empty) and does not
take the quit path; the loop continues to the next prompt. -/
theorem C5_invalid_destination (g_k : ℤ) (a : Apple) (s : List Char) (ml : ConsoleLine)
    (ha : a.dest = DEST_EMPTY)
    (hq : chomp (fgets_line 64 s) ≠ ['q'])
    (hQ : chomp (fgets_line 64 s) ≠ ['Q'])
    (hp : parse_destination (chomp (fgets_line 64 s)) g_k = none) :
    dispatch 0 g_k a ⟨.line s, ml⟩ =
      .forward a [.emptyReturned 0, .invalidDest (chomp (fgets_line 64 s))] ∧
    dispatch 0 g_k a ⟨.line s, ml⟩ ≠ .quit := by
  have h : dispatch 0 g_k a ⟨.line s, ml⟩ =
      .forward a [.emptyReturned 0, .invalidDest (chomp (fgets_line 64 s))] := by
    simp only [dispatch, ha, if_pos, if_true]
    simp only [handleEmptyInjector, hp]
    rw [if_neg]
    intro h
    rcases h with h | h
    · exact hq h
    · exact hQ h
  exact ⟨h, by rw [h]; intro hc; cases hc⟩

/-- C5 witness: destination input `"abc"` in a ring of 3. -/
theorem C5_invalid_destination_witness :
    dispatch 0 3 ⟨DEST_EMPTY, 2, []⟩ ⟨.line ['a', 'b', 'c'], .eof⟩ =
      .forward ⟨DEST_EMPTY, 2, []⟩
        [.emptyReturned 0, .invalidDest (chomp (fgets_line 64 ['a', 'b', 'c']))] ∧
    dispatch 0 3 ⟨DEST_EMPTY, 2, []⟩ ⟨.line ['a', 'b', 'c'], .eof⟩ ≠ .quit :=
  C5_invalid_destination 3 ⟨DEST_EMPTY, 2, []⟩ ['a', 'b', 'c'] .eof
    (by decide) (by decide) (by decide) (by decide)

/-- C6: a missing, non-integer, or out-of-range ring size is a fatal
startup error with exit code 1, raised before any pipe or process exists
(the `Except` staging of `startup` puts the error strictly before ring
construction); every `k ∈ [2, MAX_K]` passes validation and yields the
ring. -/
theorem C6_startup_validation (inp : Option ℤ) :
    (startup inp = .error 1 ↔
      inp = none ∨ ∃ k, inp = some k ∧ (k < 2 ∨ k > MAX_K)) ∧
    (∀ k, 2 ≤ k → k ≤ MAX_K → startup (some k) = .ok (k, edgesCreated k)) := by
  constructor
  · cases inp with
    | none => simp [startup, startup_check]
    | some k =>
        simp only [startup, startup_check]
        by_cases hk : k < 2 ∨ k > MAX_K
        · simp [hk]
        · simp [hk]
  · intro k h2 hM
    have hk : ¬(k < 2 ∨ k > MAX_K) := by
      unfold MAX_K at hM ⊢
      omega
    simp [startup, startup_check, hk]

/-- C6 witness: `k = 2` and `k = 64` are accepted, `k = 1` and a
non-integer input are rejected with exit code 1. -/
theorem C6_startup_validation_witness :
    startup (some 2) = .ok (2, edgesCreated 2) ∧
    startup (some 64) = .ok (64, edgesCreated 64) ∧
    startup (some 1) = .error 1 ∧
    startup none = .error 1 :=
  ⟨(C6_startup_validation (some 2)).2 2 (by decide) (by decide),
   (C6_startup_validation (some 64)).2 64 (by decide) (by decide),
   (C6_startup_validation (some 1)).1.mpr (Or.inr ⟨1, rfl, Or.inl (by decide)⟩),
   (C6_startup_validation none).1.mpr (Or.inl rfl)⟩

/-- Reading with `read_full` assembles a record delivered in positive partial reads and
returns success exactly when all bytes have been moved. -/
theorem read_full_assembles (parts : List ℕ) (rest : List ReadRes)
    (hpos : ∀ p ∈ parts, 0 < p) :
    read_full false parts.sum (parts.map ReadRes.bytes ++ rest) = some 0 := by
  induction parts with
  | nil => simp [read_full]
  | cons p t ih =>
      have hp : 0 < p := hpos p (List.mem_cons_self p t)
      obtain ⟨m, rfl⟩ : ∃ m, p = m + 1 := ⟨p - 1, by omega⟩
      have hsum : ((m + 1) :: t).sum = (m + t.sum) + 1 := by
        simp [List.sum_cons]
        omega
      rw [hsum]
      have hstep : read_full false ((m + t.sum) + 1)
            (ReadRes.bytes (m + 1) :: (t.map ReadRes.bytes ++ rest))
          = read_full false ((m + t.sum) + 1 - (m + 1)) (t.map ReadRes.bytes ++ rest) :=
        rfl
      have hleft : (m + t.sum) + 1 - (m + 1) = t.sum := by omega
      rw [List.map_cons, List.cons_append, hstep, hleft]
      exact ih (fun q hq => hpos q (List.mem_cons_of_mem _ hq))

/-- Writing with `write_full` assembles a record sent in positive partial writes. -/
theorem write_full_assembles (parts : List ℕ) (rest : List WriteRes)
    (hpos : ∀ p ∈ parts, 0 < p) :
    write_full parts.sum (parts.map WriteRes.bytes ++ rest) = some 0 := by
  induction parts with
  | nil => simp [write_full]
  | cons p t ih =>
      have hp : 0 < p := hpos p (List.mem_cons_self p t)
      obtain ⟨m, rfl⟩ : ∃ m, p = m + 1 := ⟨p - 1, by omega⟩
      have hsum : ((m + 1) :: t).sum = (m + t.sum) + 1 := by
        simp [List.sum_cons]
        omega
      rw [hsum]
      have hstep : write_full ((m + t.sum) + 1)
            (WriteRes.bytes (m + 1) :: (t.map WriteRes.bytes ++ rest))
          = write_full ((m + t.sum) + 1 - (m + 1)) (t.map WriteRes.bytes ++ rest) :=
        rfl
      have hleft : (m + t.sum) + 1 - (m + 1) = t.sum := by omega
      rw [List.map_cons, List.cons_append, hstep, hleft]
      exact ih (fun q hq => hpos q (List.mem_cons_of_mem _ hq))

/-- C7: channel operations retry partial transfers and `EINTR` until the
full fixed-size record has moved; a zero-byte read (peer closed) or an
unrecoverable write error yields `-1`; and in `node_loop` a failed read or
a failed write makes the node leave the loop, close both its endpoints and
terminate, consuming none of the later inputs, while a successful
iteration forwards exactly one apple and continues. -/
theorem C7_transport_errors (my_id g_k : ℤ) :
    (∀ (parts : List ℕ) (rest : List ReadRes), (∀ p ∈ parts, 0 < p) →
      read_full false parts.sum (parts.map ReadRes.bytes ++ rest) = some 0) ∧
    (∀ left tr, read_full false (left + 1) (ReadRes.rEINTR :: tr)
      = read_full false (left + 1) tr) ∧
    (∀ stop left tr, read_full stop (left + 1) (ReadRes.bytes 0 :: tr) = some (-1)) ∧
    (∀ stop left tr, read_full stop (left + 1) (ReadRes.rError :: tr) = some (-1)) ∧
    (∀ (parts : List ℕ) (rest : List WriteRes), (∀ p ∈ parts, 0 < p) →
      write_full parts.sum (parts.map WriteRes.bytes ++ rest) = some 0) ∧
    (∀ left tr, write_full (left + 1) (WriteRes.wEINTR :: tr)
      = write_full (left + 1) tr) ∧
    (∀ left tr, write_full (left + 1) (WriteRes.wError :: tr) = some (-1)) ∧
    (∀ inp rest, inp.readOk = false →
      node_run my_id g_k (inp :: rest) = exitActions) ∧
    (∀ inp rest a evs, inp.readOk = true → inp.writeOk = false →
      dispatch my_id g_k inp.apple inp.con = .forward a evs →
      node_run my_id g_k (inp :: rest) = exitActions) ∧
    (∀ inp rest a evs, inp.readOk = true → inp.writeOk = true →
      dispatch my_id g_k inp.apple inp.con = .forward a evs →
      node_run my_id g_k (inp :: rest) = .step evs a :: node_run my_id g_k rest) ∧
    exitActions = [.closeReadFd, .closeWriteFd, .exitZero] := by
  refine ⟨read_full_assembles, fun _ _ => rfl, fun _ _ _ => rfl, fun _ _ _ => rfl,
    write_full_assembles, fun _ _ => rfl, fun _ _ => rfl, ?_, ?_, ?_, rfl⟩
  · intro inp rest h
    simp [node_run, h]
  · intro inp rest a evs hr hw hd
    simp [node_run, hr, hw, hd]
  · intro inp rest a evs hr hw hd
    simp [node_run, hr, hw, hd]

/-- C7 witness: a 16-byte record read in parts 7+9, a peer-closed read, a
write error, and a node that exits on a failed read. -/
theorem C7_transport_errors_witness :
    read_full false ([7, 9].sum) ([7, 9].map ReadRes.bytes ++ []) = some 0 ∧
    read_full false 16 (ReadRes.bytes 0 :: []) = some (-1) ∧
    write_full 16 (WriteRes.wError :: []) = some (-1) ∧
    node_run 1 3 (⟨false, ⟨DEST_EMPTY, 0, []⟩, ⟨.eof, .eof⟩, true⟩ :: []) = exitActions :=
  ⟨(C7_transport_errors 1 3).1 [7, 9] [] (by decide),
   (C7_transport_errors 1 3).2.2.1 false 15 [],
   (C7_transport_errors 1 3).2.2.2.2.2.2.1 15 [],
   (C7_transport_errors 1 3).2.2.2.2.2.2.2.1 ⟨false, ⟨DEST_EMPTY, 0, []⟩, ⟨.eof, .eof⟩, true⟩ [] rfl⟩

/-- The inbound edge computed by `(i - 1 + k) % k` in C integer
arithmetic: the predecessor pipe. -/
theorem readEdge_eq (k i : ℤ) (hk : 2 ≤ k) (hi0 : 0 ≤ i) (hik : i < k) :
    readEdge k i = if i = 0 then k - 1 else i - 1 := by
  unfold readEdge
  by_cases hi : i = 0
  · subst hi
    rw [if_pos rfl]
    have : (0 : ℤ) - 1 + k = k - 1 := by ring
    rw [this]
    exact Int.emod_eq_of_lt (by omega) (by omega)
  · rw [if_neg hi]
    have : i - 1 + k = (i - 1) + k * 1 := by ring
    rw [this, Int.add_mul_emod_self_left]
    exact Int.emod_eq_of_lt (by omega) (by omega)

/-- Successor node of edge `j` in the ring. -/
theorem succ_mod_eq (k j : ℤ) (hk : 2 ≤ k) (hj0 : 0 ≤ j) (hjk : j < k) :
    (j + 1) % k = if j = k - 1 then 0 else j + 1 := by
  by_cases hj : j = k - 1
  · subst hj
    rw [if_pos rfl]
    have : k - 1 + 1 = k := by ring
    rw [this, Int.emod_self]
  · rw [if_neg hj]
    exact Int.emod_eq_of_lt (by omega) (by omega)

/-- C8: for every `k ∈ [2, MAX_K]` the builder creates exactly `k` edges;
edge `j`'s write end stays open only in process `j` and its read end only
in process `(j+1) % k`; each process keeps open exactly the read end of
its predecessor edge and the write end of its own edge, and those are two
distinct edges, so no process holds both endpoints of any edge. -/
theorem C8_ring_topology (k i j : ℤ)
    (hk2 : 2 ≤ k) (hkM : k ≤ MAX_K)
    (hi0 : 0 ≤ i) (hik : i < k) (hj0 : 0 ≤ j) (hjk : j < k) :
    ((edgesCreated k).length : ℤ) = k ∧
    (openWriteEnd k i j = true ↔ i = j) ∧
    (openReadEnd k i j = true ↔ i = (j + 1) % k) ∧
    (openReadEnd k i j = true ↔ j = readEdge k i) ∧
    (openWriteEnd k i j = true ↔ j = writeEdge k i) ∧
    readEdge k i ≠ writeEdge k i ∧
    ¬(openReadEnd k i j = true ∧ openWriteEnd k i j = true) := by
  have hre := readEdge_eq k i hk2 hi0 hik
  have hsucc := succ_mod_eq k j hk2 hj0 hjk
  have hlen : ((edgesCreated k).length : ℤ) = k := by
    unfold edgesCreated
    simp [Int.toNat_of_nonneg (by omega : (0 : ℤ) ≤ k)]
  have hwrite : openWriteEnd k i j = true ↔ i = j := by
    unfold openWriteEnd
    by_cases hi : i = 0 <;> simp [hi] <;> omega
  have hread : openReadEnd k i j = true ↔ j = readEdge k i := by
    unfold openReadEnd
    rw [hre]
    by_cases hi : i = 0
    · simp [hi]
    · simp [hi]
      rw [Int.emod_eq_of_lt (by omega : (0 : ℤ) ≤ i - 1) (by omega : i - 1 < k)]
  have hread2 : openReadEnd k i j = true ↔ i = (j + 1) % k := by
    rw [hread, hre, hsucc]
    by_cases hi : i = 0 <;> by_cases hj : j = k - 1 <;> simp [hi, hj] <;> omega
  have hne : readEdge k i ≠ writeEdge k i := by
    rw [hre]
    unfold writeEdge
    by_cases hi : i = 0 <;> simp [hi] <;> omega
  refine ⟨hlen, hwrite, hread2, hread, ?_, hne, ?_⟩
  · unfold openWriteEnd writeEdge
    by_cases hi : i = 0 <;> simp [hi] <;> omega
  · intro ⟨h1, h2⟩
    rw [hread] at h1
    rw [hwrite] at h2
    rw [← h1] at hne
    unfold writeEdge at hne
    omega

/-- C8 witness: `k = 2`, process 1 keeps read end of edge 0 and write end
of edge 1. -/
theorem C8_ring_topology_witness :
    ((edgesCreated 2).length : ℤ) = 2 ∧
    (openWriteEnd 2 1 0 = true ↔ (1 : ℤ) = 0) ∧
    (openReadEnd 2 1 0 = true ↔ (1 : ℤ) = (0 + 1) % 2) ∧
    (openReadEnd 2 1 0 = true ↔ (0 : ℤ) = readEdge 2 1) ∧
    (openWriteEnd 2 1 0 = true ↔ (0 : ℤ) = writeEdge 2 1) ∧
    readEdge 2 1 ≠ writeEdge 2 1 ∧
    ¬(openReadEnd 2 1 0 = true ∧ openWriteEnd 2 1 0 = true) :=
  C8_ring_topology 2 1 0 (by decide) (by decide) (by decide) (by decide)
    (by decide) (by decide)

/-- All recorded child pids are positive, so the kill loop signals each one. -/
theorem filterMap_sendStop (l : List ℤ) (h : ∀ p ∈ l, 0 < p) :
    l.filterMap (fun p => if p > 0 then some (ShutdownAction.sendStop p) else none)
      = l.map ShutdownAction.sendStop := by
  induction l with
  | nil => rfl
  | cons p t ih =>
      rw [List.filterMap_cons, List.map_cons]
      rw [if_pos (h p (List.mem_cons_self p t))]
      rw [ih (fun q hq => h q (List.mem_cons_of_mem _ hq))]

/-- C9: on shutdown the Injector first signals every worker, then closes
its two endpoints, then reaps, and only then exits with code 0; and the
quit directive on an empty token takes exactly this path
(`raise(SIGINT)` runs the same handler). -/
theorem C9_shutdown_order (child_pids : List ℤ) (rfd wfd g_k : ℤ)
    (a : Apple) (ml : ConsoleLine)
    (hp : ∀ p ∈ child_pids, 0 < p) (hr : 0 ≤ rfd) (hw : 0 ≤ wfd)
    (ha : a.dest = DEST_EMPTY) :
    sigint_parent_handler child_pids rfd wfd =
      child_pids.map ShutdownAction.sendStop
        ++ [ShutdownAction.closeReadFd, ShutdownAction.closeWriteFd,
            ShutdownAction.reapAll, ShutdownAction.exitCode 0] ∧
    dispatch 0 g_k a ⟨.line ['q'], ml⟩ = .quit := by
  constructor
  · unfold sigint_parent_handler
    rw [filterMap_sendStop child_pids hp, if_pos hr, if_pos hw]
    simp
  · have hbuf : chomp (fgets_line 64 ['q']) = ['q'] := by decide
    simp only [dispatch, ha, if_pos, if_true, handleEmptyInjector]
    rw [hbuf]
    rw [if_pos (Or.inl rfl)]

/-- C9 witness: two workers with pids 11 and 12, open fds 3 and 4, quit
typed at the prompt of a 2-ring. -/
theorem C9_shutdown_order_witness :
    sigint_parent_handler [11, 12] 3 4 =
      [11, 12].map ShutdownAction.sendStop
        ++ [ShutdownAction.closeReadFd, ShutdownAction.closeWriteFd,
            ShutdownAction.reapAll, ShutdownAction.exitCode 0] ∧
    dispatch 0 2 ⟨DEST_EMPTY, 0, []⟩ ⟨.line ['q'], .eof⟩ = .quit :=
  C9_shutdown_order [11, 12] 3 4 2 ⟨DEST_EMPTY, 0, []⟩ .eof
    (by decide) (by decide) (by decide) (by decide)

/-- A decimal digit is not white space. -/
theorem not_space_of_digit (c : Char) (h : c.isDigit = true) : isSpaceC c = false := by
  simp only [isSpaceC, decide_eq_false_iff_not]
  rintro (rfl | rfl | rfl | rfl | rfl | rfl) <;> exact absurd h (by decide)

/-- A decimal digit is not the minus sign. -/
theorem digit_ne_minus (c : Char) (h : c.isDigit = true) : c ≠ '-' := by
  intro h2
  rw [h2] at h
  exact absurd h (by decide)

/-- A decimal digit is not the plus sign. -/
theorem digit_ne_plus (c : Char) (h : c.isDigit = true) : c ≠ '+' := by
  intro h2
  rw [h2] at h
  exact absurd h (by decide)

/-- Structure of one `strtol` run: the input splits into consumed white
space, an optional sign, and the remainder `u`, with the result determined
by the leading digit run of `u`. -/
theorem strtol10_cases (s : List Char) :
    ∃ ws sgn u, s = ws ++ sgn ++ u ∧ (∀ c ∈ ws, isSpaceC c) ∧
      (sgn = [] ∨ sgn = ['+'] ∨ sgn = ['-']) ∧
      strtol10 s =
        (if u.takeWhile Char.isDigit = [] then ((0 : ℤ), s)
         else (signOf sgn * digitsFold (u.takeWhile Char.isDigit),
               u.dropWhile Char.isDigit)) := by
  have hsplit : s.takeWhile isSpaceC ++ s.dropWhile isSpaceC = s :=
    List.takeWhile_append_dropWhile isSpaceC s
  have hws : ∀ c ∈ s.takeWhile isSpaceC, isSpaceC c :=
    fun c hc => List.mem_takeWhile_imp hc
  cases ht : s.dropWhile isSpaceC with
  | nil =>
      refine ⟨s.takeWhile isSpaceC, [], [], ?_, hws, Or.inl rfl, ?_⟩
      · conv_lhs => rw [← hsplit]
        rw [ht]
        simp
      · simp [strtol10, ht]
  | cons c t' =>
      by_cases hcm : c = '-'
      · subst hcm
        refine ⟨s.takeWhile isSpaceC, ['-'], t', ?_, hws, Or.inr (Or.inr rfl), ?_⟩
        · conv_lhs => rw [← hsplit]
          rw [ht]
          simp
        · simp [strtol10, ht, signOf]
      · by_cases hcp : c = '+'
        · subst hcp
          refine ⟨s.takeWhile isSpaceC, ['+'], t', ?_, hws, Or.inr (Or.inl rfl), ?_⟩
          · conv_lhs => rw [← hsplit]
            rw [ht]
            simp
          · simp [strtol10, ht, signOf, hcm]
        · refine ⟨s.takeWhile isSpaceC, [], c :: t', ?_, hws, Or.inl rfl, ?_⟩
          · conv_lhs => rw [← hsplit]
            rw [ht]
            simp
          · simp [strtol10, ht, signOf, hcm, hcp]

/-- Running `strtol` on a fully well-formed input consumes everything. -/
theorem strtol10_of_decomp (ws sgn ds : List Char)
    (hws : ∀ c ∈ ws, isSpaceC c) (hsgn : sgn = [] ∨ sgn = ['+'] ∨ sgn = ['-'])
    (hne : ds ≠ []) (hdig : ∀ c ∈ ds, c.isDigit) :
    strtol10 (ws ++ sgn ++ ds) = (signOf sgn * digitsFold ds, []) := by
  have hds_take : ds.takeWhile Char.isDigit = ds :=
    List.takeWhile_eq_self_iff.mpr hdig
  have hds_drop : ds.dropWhile Char.isDigit = [] :=
    List.dropWhile_eq_nil_iff.mpr hdig
  obtain ⟨d, ds', rfl⟩ : ∃ d ds', ds = d :: ds' := by
    cases ds with
    | nil => exact absurd rfl hne
    | cons d ds' => exact ⟨d, ds', rfl⟩
  have hd : d.isDigit = true := hdig d (List.mem_cons_self d ds')
  have hdns : ¬(isSpaceC d = true) := by
    rw [not_space_of_digit d hd]
    simp
  rcases hsgn with rfl | rfl | rfl
  · have hT : (ws ++ ([] : List Char) ++ (d :: ds')).dropWhile isSpaceC = d :: ds' := by
      rw [List.append_nil, List.dropWhile_append_of_pos hws]
      exact List.dropWhile_cons_of_neg hdns
    have h1 : ¬((d :: ds').head? = some '-' ∨ (d :: ds').head? = some '+') := by
      simp [digit_ne_minus d hd, digit_ne_plus d hd]
    have h2 : ¬((d :: ds').head? = some '-') := by
      simp [digit_ne_minus d hd]
    simp only [strtol10, hT]
    rw [if_neg h1, hds_take, if_neg hne, if_neg h2, hds_drop]
    simp [signOf]
  · have hT : (ws ++ ['+'] ++ (d :: ds')).dropWhile isSpaceC = '+' :: d :: ds' := by
      rw [List.append_assoc, List.dropWhile_append_of_pos hws]
      exact List.dropWhile_cons_of_neg (by decide)
    have h1 : (('+' :: d :: ds').head? = some '-' ∨ ('+' :: d :: ds').head? = some '+') := by
      simp
    have h2 : ¬(('+' :: d :: ds').head? = some '-') := by
      simp
    simp only [strtol10, hT]
    rw [if_pos h1, List.tail_cons, hds_take, if_neg hne, if_neg h2, hds_drop]
    simp [signOf]
  · have hT : (ws ++ ['-'] ++ (d :: ds')).dropWhile isSpaceC = '-' :: d :: ds' := by
      rw [List.append_assoc, List.dropWhile_append_of_pos hws]
      exact List.dropWhile_cons_of_neg (by decide)
    have h1 : (('-' :: d :: ds').head? = some '-' ∨ ('-' :: d :: ds').head? = some '+') := by
      simp
    have h2 : (('-' :: d :: ds').head? = some '-') := by
      simp
    simp only [strtol10, hT]
    rw [if_pos h1, List.tail_cons, hds_take, if_neg hne, if_pos h2, hds_drop]
    simp [signOf]

/-- Any accepted destination string decomposes as white space, optional
sign, digits, with in-range value. -/
theorem parse_some_spec (s : List Char) (k v : ℤ)
    (h : parse_destination s k = some v) : specAccepted s k := by
  obtain ⟨ws, sgn, u, hs, hws, hsgn, hst⟩ := strtol10_cases s
  by_cases hds : u.takeWhile Char.isDigit = []
  · rw [if_pos hds] at hst
    simp only [parse_destination, hst] at h
    simp at h
  · rw [if_neg hds] at hst
    simp only [parse_destination, hst] at h
    by_cases h1 : u.dropWhile Char.isDigit = s ∨ u.dropWhile Char.isDigit ≠ []
    · rw [if_pos h1] at h
      cases h
    · rw [if_neg h1] at h
      by_cases h2 : signOf sgn * digitsFold (u.takeWhile Char.isDigit) < 0 ∨
          signOf sgn * digitsFold (u.takeWhile Char.isDigit) ≥ k
      · rw [if_pos h2] at h
        cases h
      · have hrest : u.dropWhile Char.isDigit = [] := by
          push_neg at h1
          exact h1.2
        have hu : u.takeWhile Char.isDigit = u := by
          conv_rhs => rw [← List.takeWhile_append_dropWhile Char.isDigit u]
          rw [hrest, List.append_nil]
        have hudig : ∀ c ∈ u, c.isDigit := List.takeWhile_eq_self_iff.mp hu
        have hune : u ≠ [] := by
          intro hcon
          rw [hcon] at hds
          exact hds rfl
        push_neg at h2
        refine ⟨ws, sgn, u, hs, hws, hsgn, hune, hudig, ?_, ?_⟩
        · rw [← hu]
          omega
        · rw [← hu]
          omega

/-- Any well-formed in-range destination string is accepted. -/
theorem spec_parse_some (s : List Char) (k : ℤ) (h : specAccepted s k) :
    (parse_destination s k).isSome := by
  obtain ⟨ws, sgn, ds, rfl, hws, hsgn, hne, hdig, h0, hk⟩ := h
  have hst := strtol10_of_decomp ws sgn ds hws hsgn hne hdig
  simp only [parse_destination, hst]
  have hcond : ¬(([] : List Char) = ws ++ sgn ++ ds ∨ ([] : List Char) ≠ []) := by
    intro hc
    rcases hc with hc | hc
    · have hlen := congrArg List.length hc
      simp [List.length_append] at hlen
      rcases ds with _ | ⟨d, ds'⟩
      · exact hne rfl
      · simp at hlen
        omega
    · exact hc rfl
  rw [if_neg hcond, if_neg]
  · rfl
  · intro hc
    rcases hc with hc | hc <;> omega

/-- C10: destination validation accepts exactly the strings `strtol` fully
consumes with value in `[0, k)`: optional leading white space and a single
explicit sign are allowed (so `" 3"` and `"+2"` are accepted), while
trailing non-digit characters, an empty digit sequence, or an out-of-range
value are rejected. -/
theorem C10_destination_validation (s : List Char) (k : ℤ) :
    ((parse_destination s k).isSome ↔ specAccepted s k) ∧
    parse_destination [' ', '3'] 4 = some 3 ∧
    parse_destination ['+', '2'] 4 = some 2 ∧
    parse_destination ['-', '1'] 4 = none ∧
    parse_destination ['3', 'x'] 4 = none ∧
    parse_destination [] 4 = none := by
  refine ⟨⟨?_, spec_parse_some s k⟩, by decide, by decide, by decide, by decide, by decide⟩
  intro h
  obtain ⟨v, hv⟩ := Option.isSome_iff_exists.mp h
  exact parse_some_spec s k v hv

end OneBadApple
